import Mathlib

/-!
Verification of the log-parsing core of `py-garden/logger`
(`src/parse_logs.py`).

The embedding below translates the source into Lean:

* Timestamps are modelled as microseconds-of-day (`Nat`).  The source
  parses `HH:MM:SS.ffffff` strings with `datetime.strptime` and computes
  durations through `timedelta.total_seconds() * 1e6`; for the
  microsecond-granularity values appearing here those float operations
  are exact, so integer arithmetic is a faithful model.
* The three regular expressions of `parse_logs` (the timestamp shape,
  the section-start marker and the section-end marker) are modelled as
  explicit backtracking matchers over `List Char` that mirror the
  lazy/greedy structure of the patterns
  `\[(.*?)\] \[(.*?)\]\s+(.*)`, `^===\s*start\s+(.+?)\s*===\s*\x7b`
  and `^===\s+end\s+(.+?)\s*===\s*\x7d`.
* The generic tree type (`data_structure_utils.tree`, not part of the
  sources under verification) is modelled from the spec: a node holds a
  data value and an ordered child list, and `add_child` appends at the
  end ("append it as the last child of current", spec section 4.2).
  Mutation through aliased `TreeNode` references (the open-section stack
  holds references into the tree) is modelled by a stack of frames that
  commits a child subtree to its parent when the child is closed, which
  produces the same child order because a parent acquires no children
  while one of its sub-sections is open.
* Python exceptions that `parse_logs` can raise are modelled by the
  `PError` type: `ValueError` from `strptime`, `IndexError` from
  indexing an empty stack, and `AssertionError` (whose message is the
  empty string, since the source uses bare `assert` statements) from the
  sealing step `convert_partial_tree_to_regular_tree`.
* Input is a finite list of lines (strings without newline characters),
  matching the file iteration `enumerate(f, start=1)`.
-/

/-! ## Character classes and Python string helpers -/

/-- Model of the `\s` character class (ASCII part, which is all the
sources use): space, tab, newline, carriage return, vertical tab, form
feed. -/
def isSpace (c : Char) : Bool :=
  c = ' ' || c = '\t' || c = '\n' || c = '\r' || c = '\x0b' || c = '\x0c'

/-- Model of Python `str.strip()`: drop leading and trailing whitespace. -/
def pyStrip (s : String) : List Char :=
  ((s.toList.dropWhile (fun c => isSpace c)).reverse.dropWhile (fun c => isSpace c)).reverse

/-! ## The timestamp regex `\[(.*?)\] \[(.*?)\]\s+(.*)`

`matchG2` matches `(.*?)\]\s+(.*)` (lazy group 2, then `]`, then a
greedy whitespace run, then the greedy rest-of-line group 3);
`matchG1` matches `(.*?)\] \[` followed by `matchG2`, with the lazy
group 1 extending past a candidate `] [` separator whenever the
remainder fails to match, exactly as the backtracking engine does.  `.`
does not match a newline. -/

def matchG2 : List Char → Option (List Char × List Char)
  | [] => none
  | c :: r =>
    if c = '\n' then none
    else
      match r with
      | c2 :: _ =>
        if c = ']' && isSpace c2 then
          some ([], (r.dropWhile (fun x => isSpace x)).takeWhile (fun x => x ≠ '\n'))
        else (matchG2 r).map (fun p => (c :: p.1, p.2))
      | [] => (matchG2 r).map (fun p => (c :: p.1, p.2))

def matchG1 : List Char → Option (List Char × List Char × List Char)
  | [] => none
  | ']' :: ' ' :: '[' :: rest =>
    match matchG2 rest with
    | some (g2, g3) => some ([], g2, g3)
    | none => (matchG1 (' ' :: '[' :: rest)).map (fun t => (']' :: t.1, t.2.1, t.2.2))
  | c :: r =>
    if c = '\n' then none
    else (matchG1 r).map (fun t => (c :: t.1, t.2.1, t.2.2))

/-- Model of `timestamp_re.match(line.strip())` for
`timestamp_re = \[(.*?)\] \[(.*?)\]\s+(.*)`: returns the three groups
(timestamp text, level, message). -/
def matchTimestamp (cs : List Char) : Option (String × String × String) :=
  match cs with
  | '[' :: r => (matchG1 r).map (fun t => (String.mk t.1, String.mk t.2.1, String.mk t.2.2))
  | _ => none

/-! ## `datetime.strptime(ts_str, "%H:%M:%S.%f")` -/

def digitsToNat (cs : List Char) : Nat :=
  cs.foldl (fun a c => a * 10 + (c.toNat - 48)) 0

/-- One numeric field of `strptime`: one or two digits (two only when
the value stays within `maxv`, mirroring the generated alternations
`2[0-3]|[0-1]\d|\d` and `[0-5]\d|\d`), followed by the separator
character. -/
def parseField (maxv : Nat) (sep : Char) : List Char → Option (Nat × List Char)
  | d1 :: d2 :: rest =>
    if d1.isDigit then
      let v1 := d1.toNat - 48
      let two : Option (Nat × List Char) :=
        if d2.isDigit && v1 * 10 + (d2.toNat - 48) ≤ maxv then
          match rest with
          | c :: rest2 => if c = sep then some (v1 * 10 + (d2.toNat - 48), rest2) else none
          | [] => none
        else none
      match two with
      | some x => some x
      | none => if d2 = sep then some (v1, rest) else none
    else none
  | _ => none

/-- The `%f` field: one to six digits which must end the string (extra
characters make `strptime` raise), right-padded to microseconds. -/
def parseFrac (cs : List Char) : Option Nat :=
  if cs ≠ [] && cs.length ≤ 6 && cs.all (fun c => c.isDigit) then
    some (digitsToNat cs * 10 ^ (6 - cs.length))
  else none

/-- Model of `datetime.strptime(ts_str, "%H:%M:%S.%f")`, returning the
time of day in microseconds, or `none` when Python raises `ValueError`
(either from `strptime` itself or from the out-of-range seconds check in
the `datetime` constructor, which are indistinguishable for `parse_logs`). -/
def parseTime (s : String) : Option Nat :=
  match parseField 23 ':' s.toList with
  | none => none
  | some (h, r1) =>
    match parseField 59 ':' r1 with
    | none => none
    | some (m, r2) =>
      match parseField 59 '.' r2 with
      | none => none
      | some (sec, r3) =>
        (parseFrac r3).map (fun f => ((h * 60 + m) * 60 + sec) * 1000000 + f)

/-! ## Message cleaning and the marker regexes -/

/-- Model of `re.sub(r"^(?:\|\s*)+", "", msg)`.  The greedy match of
`(?:\|\s*)+` is exactly the longest prefix consisting of `|` and
whitespace characters, provided the first character is `|`. -/
def stripBars (cs : List Char) : List Char :=
  match cs with
  | '|' :: _ => cs.dropWhile (fun c => c = '|' || isSpace c)
  | _ => cs

def stripBarsStr (s : String) : String :=
  String.mk (stripBars s.toList)

/-- Applying the optional caller-supplied `message_transform`. -/
def applyMT (mt : Option (String → String)) (s : String) : String :=
  match mt with
  | some f => f s
  | none => s

/-- The tail `\s*===\s*c` of the marker patterns (with `c` the closing
brace), which involves no backtracking because whitespace overlaps with
neither `=` nor a brace. -/
def tailEnd (close : Char) (cs : List Char) : Bool :=
  match cs.dropWhile (fun x => isSpace x) with
  | '=' :: '=' :: '=' :: r =>
    match r.dropWhile (fun x => isSpace x) with
    | c :: _ => c = close
    | [] => false
  | _ => false

/-- The lazy name group `(.+?)` followed by `\s*===\s*c`: the shortest
non-empty newline-free prefix whose remainder matches the tail. -/
def findName (close : Char) : List Char → Option (List Char)
  | [] => none
  | c :: r =>
    if c = '\n' then none
    else if tailEnd close r then some [c]
    else (findName close r).map (fun n => c :: n)

/-- The greedy `\s+` before the name group, longest run first, falling
back one whitespace character at a time (the name may itself start with
whitespace when the full run leaves no match). -/
def goWs (close : Char) : List Char → Option (List Char)
  | [] => none
  | c :: r =>
    if isSpace c then
      match goWs close r with
      | some n => some n
      | none => findName close (c :: r)
    else findName close (c :: r)

/-- `\s+(.+?)\s*===\s*c` starting right after the keyword: at least one
whitespace character is required. -/
def afterKeyword (close : Char) (cs : List Char) : Option (List Char) :=
  match cs with
  | c :: r => if isSpace c then goWs close r else none
  | [] => none

/-- Model of `start_of_log_section_re.match` for
`^===\s*start\s+(.+?)\s*===\s*\x7b`; returns the section name group. -/
def matchStart (cs : List Char) : Option (List Char) :=
  match cs with
  | '=' :: '=' :: '=' :: r =>
    match r.dropWhile (fun x => isSpace x) with
    | 's' :: 't' :: 'a' :: 'r' :: 't' :: r2 => afterKeyword '\x7b' r2
    | _ => none
  | _ => none

/-- Model of `end_re.match` for `^===\s+end\s+(.+?)\s*===\s*\x7d`;
returns the section name group.  Unlike the start marker, at least one
whitespace character is required after `===`. -/
def matchEnd (cs : List Char) : Option (List Char) :=
  match cs with
  | '=' :: '=' :: '=' :: c :: r =>
    if isSpace c then
      match r.dropWhile (fun x => isSpace x) with
      | 'e' :: 'n' :: 'd' :: r2 => afterKeyword '\x7d' r2
      | _ => none
    else none
  | _ => none

/-- Classification of a cleaned message, in the priority order of the
source: section-start first, then section-end, otherwise a plain event. -/
inductive MsgClass where
  | secStart (name : String)
  | secEnd (name : String)
  | plainEvent
deriving Repr, DecidableEq

def classifyMessage (m : String) : MsgClass :=
  match matchStart m.toList with
  | some n => .secStart (String.mk n)
  | none =>
    match matchEnd m.toList with
    | some n => .secEnd (String.mk n)
    | none => .plainEvent

/-! ## Data model (`LogMessage`, `PartialLogSection`, `LogSection`) -/

/-- A leaf log record (`LogMessage` in the source). -/
structure LogMessage where
  timestamp : Nat
  level : String
  message : String
deriving Repr, DecidableEq

/-- An in-progress section (`PartialLogSection` in the source): the end
fields, and for the synthesized root also the start fields, may be
absent. -/
structure PartialLogSection where
  name : String
  start_time : Option Nat
  start_line : Option Nat
  end_time : Option Nat
  end_line : Option Nat
deriving Repr, DecidableEq

/-- A sealed section (`LogSection` in the source): all four fields are
guaranteed present. -/
structure LogSection where
  name : String
  start_time : Nat
  end_time : Nat
  start_line : Nat
  end_line : Nat
deriving Repr, DecidableEq

/-- `LogSection.duration_microseconds`; the float arithmetic
`(end - start).total_seconds() * 1e6` of the source is exact at
microsecond granularity. -/
def LogSection.duration_microseconds (s : LogSection) : Int :=
  (s.end_time : Int) - (s.start_time : Int)

/-- The in-progress tree: `TreeNode[PartialLogEntry]` in the source.
Modelled from the spec: the generic tree module is not among the
sources; per spec section 3 a node owns an ordered child list and
children are appended in document order. -/
inductive PTree where
  | sec (data : PartialLogSection) (children : List PTree)
  | msg (m : LogMessage)
deriving Repr

/-- The sealed tree: `TreeNode[LogEntry]` in the source. -/
inductive RTree where
  | sec (data : LogSection) (children : List RTree)
  | msg (m : LogMessage)
deriving Repr

/-! ## Sealing (`convert_partial_tree_to_regular_tree`)

The source checks, in order: that the node data is a section, then that
`start_time`, `end_time`, `start_line`, `end_line` are present; each
check is a bare `assert`, so the raised `AssertionError` carries the
empty message.  Children are converted recursively in order; messages
pass through unchanged. -/

mutual
def convertEntry : PTree → Except String RTree
  | .msg m => .ok (.msg m)
  | .sec d ch =>
    match d.start_time, d.end_time, d.start_line, d.end_line with
    | some a, some b, some c, some e =>
      match convertList ch with
      | .ok rs => .ok (.sec ⟨d.name, a, b, c, e⟩ rs)
      | .error s => .error s
    | _, _, _, _ => .error ""
def convertList : List PTree → Except String (List RTree)
  | [] => .ok []
  | t :: ts =>
    match convertEntry t with
    | .ok r =>
      match convertList ts with
      | .ok rs => .ok (r :: rs)
      | .error s => .error s
    | .error s => .error s
end

/-- Model of `convert_partial_tree_to_regular_tree` (the name avoids the
snake-case of the source for lexical reasons; the behaviour is the
same).  Called on a root that is not a section it fails the isinstance
assert. -/
def convertPartialTreeToRegularTree (t : PTree) : Except String RTree :=
  match t with
  | .msg _ => .error ""
  | .sec _ _ => convertEntry t

/-! ## The stack machine of `parse_logs` -/

/-- The Python exceptions `parse_logs` can raise. -/
inductive PError where
  | valueError
  | indexError
  | assertionError (msg : String)
deriving Repr, DecidableEq

/-- One open section on the stack: its data plus the children committed
so far (closed sub-sections and events, in document order). -/
structure Frame where
  data : PartialLogSection
  children : List PTree
deriving Repr

/-- Parser state.  `stack` holds the open sections, top first, with the
synthesized root at the bottom; `popped` holds the root frame in the
degenerate situation where an `=== end root ===` marker closed and
popped the root itself (the Python list is then empty, but the `root`
variable still references the node). -/
structure ParseState where
  stack : List Frame
  popped : Option Frame
  firstTs : Option Nat
  lastTs : Option Nat
  lastLine : Option Nat
  warnings : List String
deriving Repr

/-- The exact text printed by the unmatched-end warning. -/
def warnMsg (name : String) : String :=
  "Warning: unmatched end of section: " ++ name

/-- Apply a function to the bottom element of the stack (the root
frame), as the aliased `root.data` mutations of the source do. -/
def updateBottom (g : Frame → Frame) : List Frame → List Frame
  | [] => []
  | [f] => [g f]
  | f :: rest => f :: updateBottom g rest

/-- Mutate the root section data wherever the root currently lives. -/
def updateRootData (g : PartialLogSection → PartialLogSection) (st : ParseState) : ParseState :=
  match st.popped with
  | some fr => { st with popped := some { fr with data := g fr.data } }
  | none => { st with stack := updateBottom (fun fr => { fr with data := g fr.data }) st.stack }

/-- Timestamp bookkeeping for a successfully classified timestamped
line (source lines 150-154): on the first such line both
`first_timestamp` and the aliased `root.data.start_time` are set; every
such line updates `last_timestamp`. -/
def bumpTs (timestamp : Nat) (st : ParseState) : ParseState :=
  if st.firstTs.isNone then
    { updateRootData (fun d => { d with start_time := some timestamp })
        { st with firstTs := some timestamp } with lastTs := some timestamp }
  else { st with lastTs := some timestamp }

/-- The marker/event dispatch for a timestamped line (source lines
156-192): the message is cleaned (continuation bars stripped, optional
transform applied), `current_section = stack[-1]` is read (raising
`IndexError` on an empty stack), then the start pattern, the end
pattern, and the plain-event fallthrough are tried in order. -/
def stepBody (mt : Option (String → String)) (st : ParseState) (line_num timestamp : Nat)
    (level msg : String) : Except PError ParseState :=
  match st.stack with
  | [] => .error .indexError
  | cur :: rest =>
    match matchStart (applyMT mt (stripBarsStr msg)).toList with
    | some section_name =>
      .ok { st with stack :=
        ⟨⟨String.mk section_name, some timestamp, some line_num, none, none⟩, []⟩ :: cur :: rest }
    | none =>
      match matchEnd (applyMT mt (stripBarsStr msg)).toList with
      | some nameChars =>
        if cur.data.name = String.mk nameChars then
          match rest with
          | [] =>
            .ok { st with
              stack := [],
              popped := some (Frame.mk
                { cur.data with end_time := some timestamp, end_line := some line_num }
                cur.children) }
          | parent :: rest2 =>
            .ok { st with stack :=
              { parent with children := parent.children ++
                [.sec { cur.data with end_time := some timestamp, end_line := some line_num }
                  cur.children] } :: rest2 }
        else
          .ok { st with warnings := st.warnings ++ [warnMsg (String.mk nameChars)] }
      | none =>
        .ok { st with stack :=
          { cur with children := cur.children ++
            [.msg ⟨timestamp, level, applyMT mt (stripBarsStr msg)⟩] } :: rest }

/-- Processing of one input line (the body of the `for` loop of
`parse_logs`), faithful to the statement order of the source:
line-number bookkeeping, timestamp match, `strptime` (whose failure
raises `ValueError`), first/last timestamp updates, then the dispatch of
`stepBody`. -/
def stepLine (mt : Option (String → String)) (st : ParseState) (line_num : Nat) (line : String) :
    Except PError ParseState :=
  match matchTimestamp (pyStrip line) with
  | none => .ok { st with lastLine := some line_num }
  | some (ts_str, level, msg) =>
    match parseTime ts_str with
    | none => .error .valueError
    | some timestamp =>
      stepBody mt (bumpTs timestamp { st with lastLine := some line_num }) line_num timestamp
        level msg

/-- Run the loop over the remaining lines, `n` being the 1-based number
of the next line; a raised exception aborts the loop. -/
def runLines (mt : Option (String → String)) : Nat → ParseState → List String → ParseState × Option PError
  | _, st, [] => (st, none)
  | n, st, l :: ls =>
    match stepLine mt st n l with
    | .ok st2 => runLines mt (n + 1) st2 ls
    | .error e => (st, some e)

/-- The initial state: the stack holds only the synthesized root. -/
def initState : ParseState :=
  ⟨[⟨⟨"root", none, none, none, none⟩, []⟩], none, none, none, none, []⟩

/-- The end-of-input closing of the root (lines 194–198 of the source):
`start_line = 1`, `end_line = last_used_line_number`,
`close(last_timestamp, last_used_line_number)`, executed only when both
`last_timestamp` and `last_used_line_number` are truthy. -/
def sealRoot (st : ParseState) : ParseState :=
  match st.lastTs, st.lastLine with
  | some t, some n =>
    if n = 0 then st
    else
      updateRootData
        (fun d => { d with start_line := some 1, end_line := some n, end_time := some t }) st
  | _, _ => st

/-- The field overwrite applied to the root data at end-of-input. -/
def sealFields (n t : Nat) (d : PartialLogSection) : PartialLogSection :=
  { d with start_line := some 1, end_line := some n, end_time := some t }

/-- Rebuild the in-progress tree from the stack: sections still open at
end-of-input sit in their parent's child list exactly where the
source's `add_child`-at-push placed them (last, since a parent gains no
later child while a sub-section is open). -/
def collapse : Frame → List Frame → PTree
  | f, [] => .sec f.data f.children
  | f, g :: rest => collapse ⟨g.data, g.children ++ [.sec f.data f.children]⟩ rest

def buildPTree (st : ParseState) : PTree :=
  match st.popped with
  | some fr => .sec fr.data fr.children
  | none =>
    match st.stack with
    | f :: rest => collapse f rest
    | [] => .sec ⟨"root", none, none, none, none⟩ []

/-- Model of `parse_logs`: the input is the file's line list; the result
pairs the emitted warnings with either the sealed tree or the raised
exception. -/
def parse_logs (mt : Option (String → String)) (lines : List String) :
    List String × Except PError RTree :=
  match runLines mt 1 initState lines with
  | (st, some e) => (st.warnings, .error e)
  | (st, none) =>
    let st2 := sealRoot st
    match convertPartialTreeToRegularTree (buildPTree st2) with
    | .ok t => (st2.warnings, .ok t)
    | .error m => (st2.warnings, .error (.assertionError m))

/-- The timestamp carried by a line, when it is a successfully
classified timestamped line. -/
def lineTs (l : String) : Option Nat :=
  match matchTimestamp (pyStrip l) with
  | some (ts, _, _) => parseTime ts
  | none => none

/-- First timestamp over a line list. -/
def firstTsOf : List String → Option Nat
  | [] => none
  | l :: ls =>
    match lineTs l with
    | some t => some t
    | none => firstTsOf ls

/-- Last timestamp over a line list. -/
def lastTsOf : List String → Option Nat
  | [] => none
  | l :: ls =>
    match lastTsOf ls with
    | some t => some t
    | none => lineTs l

/-! ## Invariant predicates over trees and parser states -/

/-- Substring test, used to state what a warning or error message does
or does not mention. -/
def occursIn (n : List Char) : List Char → Bool
  | [] => n.isEmpty
  | c :: r => n.isPrefixOf (c :: r) || occursIn n r

def occursStr (needle hay : String) : Bool :=
  occursIn needle.toList hay.toList

/-! `closedIn lo hi`: all sections of an in-progress subtree are closed,
with line ranges nested inside the bounds and inside their parents. -/
mutual
def closedIn : Nat → Nat → PTree → Bool
  | _, _, .msg _ => true
  | lo, hi, .sec d ch =>
    match d.start_line, d.end_line with
    | some sl, some el =>
      decide (lo ≤ sl) && decide (sl ≤ el) && decide (el ≤ hi) && closedInList sl el ch
    | _, _ => false
def closedInList : Nat → Nat → List PTree → Bool
  | _, _, [] => true
  | lo, hi, t :: ts => closedIn lo hi t && closedInList lo hi ts
end

/-! `rIn`: the same bounds discipline on a sealed subtree. -/
mutual
def rIn : Nat → Nat → RTree → Bool
  | _, _, .msg _ => true
  | lo, hi, .sec d ch =>
    decide (lo ≤ d.start_line) && decide (d.start_line ≤ d.end_line) &&
      decide (d.end_line ≤ hi) && rInList d.start_line d.end_line ch
def rInList : Nat → Nat → List RTree → Bool
  | _, _, [] => true
  | lo, hi, t :: ts => rIn lo hi t && rInList lo hi ts
end

/-! `sectionInv`: the invariant claimed by the spec for sealed trees;
every section has `start_line ≤ end_line` and its line range contains
the ranges of all its child sections. -/
mutual
def sectionInv : RTree → Bool
  | .msg _ => true
  | .sec d ch => decide (d.start_line ≤ d.end_line) && childrenWithin d.start_line d.end_line ch
def childrenWithin : Nat → Nat → List RTree → Bool
  | _, _, [] => true
  | lo, hi, .msg _ :: ts => childrenWithin lo hi ts
  | lo, hi, .sec d ch :: ts =>
    decide (lo ≤ d.start_line) && decide (d.end_line ≤ hi) &&
      sectionInv (.sec d ch) && childrenWithin lo hi ts
end

/-! `hasOpen`: an in-progress subtree contains a section missing its
`end_line`. -/
mutual
def hasOpen : PTree → Bool
  | .msg _ => false
  | .sec d ch => d.end_line.isNone || hasOpenList ch
def hasOpenList : List PTree → Bool
  | [] => false
  | t :: ts => hasOpen t || hasOpenList ts
end

/-- Lower line bound contributed by a frame: its start line, or 1 for
the synthesized root (whose `start_line` stays absent during the scan). -/
def frLo (fr : Frame) : Nat :=
  fr.data.start_line.getD 1

/-- Stack discipline at upper line bound `hi` (the number of lines
consumed so far): every open frame is unclosed, committed children are
closed and nested within their frame's bounds, and start lines grow
from the root (bottom, `start_line` absent) to the top of the stack. -/
def stackOK : Nat → List Frame → Prop
  | _, [] => True
  | hi, [fr] =>
    fr.data.start_line = none ∧ fr.data.end_time = none ∧ fr.data.end_line = none ∧
      closedInList 1 hi fr.children = true
  | hi, fr :: g :: rest =>
    (∃ s, fr.data.start_line = some s ∧ 1 ≤ s ∧ s ≤ hi ∧ frLo g ≤ s ∧
      closedInList s hi fr.children = true) ∧
    fr.data.end_time = none ∧ fr.data.end_line = none ∧
    stackOK hi (g :: rest)

/-- The root section data, wherever it currently lives. -/
def getRootD (st : ParseState) : Option PartialLogSection :=
  match st.popped with
  | some fr => some fr.data
  | none => (st.stack.getLast?).map (fun fr => fr.data)

/-- The root's `start_time` tracks the first timestamp ever seen. -/
def RootTs (st : ParseState) : Prop :=
  ∃ d, getRootD st = some d ∧ d.start_time = st.firstTs

/-- The full state invariant, at `n` = 1-based number of the next line. -/
def StInv (n : Nat) (st : ParseState) : Prop :=
  1 ≤ n ∧
  st.lastLine = (if n = 1 then none else some (n - 1)) ∧
  (st.lastTs.isSome → 2 ≤ n) ∧
  (st.popped = none → st.stack ≠ [] ∧ stackOK (n - 1) st.stack) ∧
  (∀ fr, st.popped = some fr →
    st.stack = [] ∧ closedInList 1 (n - 1) fr.children = true ∧ st.lastTs.isSome)

/-! ## Basic lemmas about the tree predicates -/

mutual
theorem closedIn_mono : ∀ (t : PTree) (lo hi lo' hi' : Nat), lo' ≤ lo → hi ≤ hi' →
    closedIn lo hi t = true → closedIn lo' hi' t = true
  | .msg m => by intro lo hi lo' hi' _ _ _; simp [closedIn]
  | .sec d ch => by
    intro lo hi lo' hi' h1 h2 h3
    cases hsl : d.start_line with
    | none => simp [closedIn, hsl] at h3
    | some sl =>
      cases hel : d.end_line with
      | none => simp [closedIn, hsl, hel] at h3
      | some el =>
        simp only [closedIn, hsl, hel, Bool.and_eq_true, decide_eq_true_eq] at h3 ⊢
        exact ⟨⟨⟨Nat.le_trans h1 h3.1.1.1, h3.1.1.2⟩, Nat.le_trans h3.1.2 h2⟩, h3.2⟩
theorem closedInList_mono : ∀ (l : List PTree) (lo hi lo' hi' : Nat), lo' ≤ lo → hi ≤ hi' →
    closedInList lo hi l = true → closedInList lo' hi' l = true
  | [] => by intro lo hi lo' hi' _ _ _; simp [closedInList]
  | t :: ts => by
    intro lo hi lo' hi' h1 h2 h3
    simp only [closedInList, Bool.and_eq_true] at h3 ⊢
    exact ⟨closedIn_mono t lo hi lo' hi' h1 h2 h3.1,
      closedInList_mono ts lo hi lo' hi' h1 h2 h3.2⟩
end

theorem closedInList_append (lo hi : Nat) (a b : List PTree) :
    closedInList lo hi (a ++ b) = (closedInList lo hi a && closedInList lo hi b) := by
  induction a with
  | nil => simp [closedInList]
  | cons t ts ih => simp [closedInList, ih, Bool.and_assoc]

theorem stackOK_mono : ∀ (l : List Frame) (hi hi' : Nat), hi ≤ hi' →
    stackOK hi l → stackOK hi' l
  | [] => by intro hi hi' _ _; trivial
  | [fr] => by
    intro hi hi' h hok
    obtain ⟨h1, h2, h3, h4⟩ := hok
    exact ⟨h1, h2, h3, closedInList_mono _ 1 hi 1 hi' (Nat.le_refl 1) h h4⟩
  | fr :: g :: rest => by
    intro hi hi' h hok
    obtain ⟨⟨s, hs, hs1, hs2, hs3, hs4⟩, h2, h3, h4⟩ := hok
    exact ⟨⟨s, hs, hs1, Nat.le_trans hs2 h, hs3,
      closedInList_mono _ s hi s hi' (Nat.le_refl s) h hs4⟩, h2, h3,
      stackOK_mono (g :: rest) hi hi' h h4⟩

theorem updateBottom_startTime_data (x : Option Nat) :
    ∀ (l : List Frame) (hi : Nat), stackOK hi l →
      stackOK hi (updateBottom (fun fr => { fr with data := { fr.data with start_time := x } }) l)
  | [] => by intro hi h; trivial
  | [fr] => by
    intro hi h
    obtain ⟨h1, h2, h3, h4⟩ := h
    simp only [updateBottom]
    exact ⟨h1, h2, h3, h4⟩
  | fr :: g :: rest => by
    intro hi h
    obtain ⟨hex, h2, h3, h4⟩ := h
    cases rest with
    | nil =>
      obtain ⟨g1, g2, g3, g4⟩ := h4
      simp only [updateBottom]
      refine ⟨?_, h2, h3, g1, g2, g3, g4⟩
      obtain ⟨s, hs, hs1, hs2, hs3, hs4⟩ := hex
      exact ⟨s, hs, hs1, hs2, by simpa [frLo] using hs3, hs4⟩
    | cons r rest2 =>
      have ih := updateBottom_startTime_data x (g :: r :: rest2) hi h4
      simp only [updateBottom] at ih ⊢
      exact ⟨hex, h2, h3, ih⟩

/-! ## Sealing lemmas -/

mutual
theorem convertEntry_rIn : ∀ (t : PTree) (r : RTree) (lo hi : Nat),
    closedIn lo hi t = true → convertEntry t = .ok r → rIn lo hi r = true
  | .msg m => by
    intro r lo hi _ hc
    simp only [convertEntry, Except.ok.injEq] at hc
    subst hc; simp [rIn]
  | .sec d ch => by
    intro r lo hi hcl hc
    cases hsl : d.start_line with
    | none => simp [closedIn, hsl] at hcl
    | some sl =>
      cases hel : d.end_line with
      | none => simp [closedIn, hsl, hel] at hcl
      | some el =>
        simp only [closedIn, hsl, hel, Bool.and_eq_true, decide_eq_true_eq] at hcl
        cases hst : d.start_time with
        | none => simp [convertEntry, hst] at hc
        | some a =>
          cases het : d.end_time with
          | none => simp [convertEntry, hst, het] at hc
          | some b =>
            simp only [convertEntry, hst, het, hsl, hel] at hc
            cases hcL : convertList ch with
            | error s => rw [hcL] at hc; exact absurd hc (by simp)
            | ok rs =>
              rw [hcL] at hc
              simp only [Except.ok.injEq] at hc
              subst hc
              simp only [rIn, Bool.and_eq_true, decide_eq_true_eq]
              exact ⟨⟨⟨hcl.1.1.1, hcl.1.1.2⟩, hcl.1.2⟩,
                convertList_rIn ch rs sl el hcl.2 hcL⟩
theorem convertList_rIn : ∀ (l : List PTree) (rs : List RTree) (lo hi : Nat),
    closedInList lo hi l = true → convertList l = .ok rs → rInList lo hi rs = true
  | [] => by
    intro rs lo hi _ hc
    simp only [convertList, Except.ok.injEq] at hc
    subst hc; simp [rInList]
  | t :: ts => by
    intro rs lo hi hcl hc
    simp only [closedInList, Bool.and_eq_true] at hcl
    simp only [convertList] at hc
    cases he : convertEntry t with
    | error s => rw [he] at hc; exact absurd hc (by simp)
    | ok r =>
      rw [he] at hc
      cases hL : convertList ts with
      | error s => rw [hL] at hc; exact absurd hc (by simp)
      | ok rs2 =>
        rw [hL] at hc
        simp only [Except.ok.injEq] at hc
        subst hc
        simp only [rInList, Bool.and_eq_true]
        exact ⟨convertEntry_rIn t r lo hi hcl.1 he, convertList_rIn ts rs2 lo hi hcl.2 hL⟩
end

mutual
theorem rIn_sectionInv : ∀ (r : RTree) (lo hi : Nat), rIn lo hi r = true → sectionInv r = true
  | .msg m => by intro lo hi _; simp [sectionInv]
  | .sec d ch => by
    intro lo hi h
    simp only [rIn, Bool.and_eq_true, decide_eq_true_eq] at h
    simp only [sectionInv, Bool.and_eq_true, decide_eq_true_eq]
    exact ⟨h.1.1.2, rInList_childrenWithin ch d.start_line d.end_line h.2⟩
theorem rInList_childrenWithin : ∀ (l : List RTree) (lo hi : Nat),
    rInList lo hi l = true → childrenWithin lo hi l = true
  | [] => by intro lo hi _; simp [childrenWithin]
  | .msg m :: ts => by
    intro lo hi h
    simp only [rInList, Bool.and_eq_true] at h
    simp only [childrenWithin]
    exact rInList_childrenWithin ts lo hi h.2
  | .sec d ch :: ts => by
    intro lo hi h
    simp only [rInList, Bool.and_eq_true, decide_eq_true_eq] at h
    have hd := h.1
    simp only [rIn, Bool.and_eq_true, decide_eq_true_eq] at hd
    simp only [childrenWithin, Bool.and_eq_true, decide_eq_true_eq]
    exact ⟨⟨⟨hd.1.1.1, hd.1.2⟩, rIn_sectionInv (.sec d ch) lo hi h.1⟩,
      rInList_childrenWithin ts lo hi h.2⟩
end

mutual
theorem hasOpen_not_ok : ∀ (t : PTree), hasOpen t = true → ∀ r, convertEntry t ≠ .ok r
  | .msg m => by intro h; simp [hasOpen] at h
  | .sec d ch => by
    intro h r hc
    simp only [hasOpen, Bool.or_eq_true, Option.isNone_iff_eq_none] at h
    cases hel : d.end_line with
    | none =>
      cases hst : d.start_time
      · simp [convertEntry, hst] at hc
      · cases het : d.end_time
        · simp [convertEntry, hst, het] at hc
        · cases hsl : d.start_line
          · simp [convertEntry, hst, het, hel, hsl] at hc
          · simp [convertEntry, hst, het, hel, hsl] at hc
    | some el =>
      rcases h with h | h
      · rw [h] at hel; exact absurd hel (by simp)
      · cases hst : d.start_time
        · simp [convertEntry, hst] at hc
        · cases het : d.end_time
          · simp [convertEntry, hst, het] at hc
          · cases hsl : d.start_line
            · simp [convertEntry, hst, het, hel, hsl] at hc
            · simp only [convertEntry, hst, het, hel, hsl] at hc
              cases hcL : convertList ch with
              | error s => rw [hcL] at hc; exact absurd hc (by simp)
              | ok rs =>
                exact hasOpenList_not_ok ch h rs hcL
theorem hasOpenList_not_ok : ∀ (l : List PTree), hasOpenList l = true →
    ∀ rs, convertList l ≠ .ok rs
  | [] => by intro h; simp [hasOpenList] at h
  | t :: ts => by
    intro h rs hc
    simp only [hasOpenList, Bool.or_eq_true] at h
    simp only [convertList] at hc
    cases he : convertEntry t with
    | error s => rw [he] at hc; exact absurd hc (by simp)
    | ok r =>
      rw [he] at hc
      cases hL : convertList ts with
      | error s => rw [hL] at hc; exact absurd hc (by simp)
      | ok rs2 =>
        rcases h with h | h
        · exact hasOpen_not_ok t h r he
        · exact hasOpenList_not_ok ts h rs2 hL
end

mutual
theorem convertEntry_error_msg : ∀ (t : PTree) (s : String), convertEntry t = .error s → s = ""
  | .msg m => by intro s h; simp [convertEntry] at h
  | .sec d ch => by
    intro s h
    cases hst : d.start_time with
    | none => simp [convertEntry, hst] at h; exact h.symm
    | some a =>
      cases het : d.end_time with
      | none => simp [convertEntry, hst, het] at h; exact h.symm
      | some b =>
        cases hsl : d.start_line with
        | none => simp [convertEntry, hst, het, hsl] at h; exact h.symm
        | some sl =>
          cases hel : d.end_line with
          | none => simp [convertEntry, hst, het, hsl, hel] at h; exact h.symm
          | some el =>
            simp only [convertEntry, hst, het, hsl, hel] at h
            cases hcL : convertList ch with
            | error s2 =>
              rw [hcL] at h
              simp only [Except.error.injEq] at h
              subst h
              exact convertList_error_msg ch s2 hcL
            | ok rs => rw [hcL] at h; exact absurd h (by simp)
theorem convertList_error_msg : ∀ (l : List PTree) (s : String), convertList l = .error s → s = ""
  | [] => by intro s h; simp [convertList] at h
  | t :: ts => by
    intro s h
    simp only [convertList] at h
    cases he : convertEntry t with
    | error s2 =>
      rw [he] at h
      simp only [Except.error.injEq] at h
      subst h
      exact convertEntry_error_msg t s2 he
    | ok r =>
      rw [he] at h
      cases hL : convertList ts with
      | error s2 =>
        rw [hL] at h
        simp only [Except.error.injEq] at h
        subst h
        exact convertList_error_msg ts s2 hL
      | ok rs => rw [hL] at h; exact absurd h (by simp)
end

theorem collapse_hasOpen : ∀ (rest : List Frame) (f : Frame),
    hasOpen (.sec f.data f.children) = true → hasOpen (collapse f rest) = true
  | [] => by intro f h; simpa [collapse] using h
  | g :: rest => by
    intro f h
    simp only [collapse]
    apply collapse_hasOpen rest
    simp only [hasOpen, hasOpenList, Bool.or_eq_true]
    right
    have : hasOpenList (g.children ++ [PTree.sec f.data f.children]) =
        (hasOpenList g.children || hasOpenList [PTree.sec f.data f.children]) := by
      induction g.children with
      | nil => simp [hasOpenList]
      | cons t ts ih => simp [hasOpenList, ih, Bool.or_assoc]
    rw [this]
    simp only [hasOpenList, Bool.or_eq_true]
    right; left; exact h

/-! ## Stack bookkeeping helpers -/

theorem getLast?_cons_of_ne_nil {α : Type} (a : α) : ∀ (l : List α), l ≠ [] →
    (a :: l).getLast? = l.getLast?
  | [], h => absurd rfl h
  | b :: l, _ => by
    rw [List.getLast?_cons_cons]

theorem updateBottom_getLast? (f : Frame → Frame) : ∀ (l : List Frame),
    (updateBottom f l).getLast? = l.getLast?.map f
  | [] => rfl
  | [fr] => rfl
  | fr :: g :: rest => by
    have ih := updateBottom_getLast? f (g :: rest)
    simp only [updateBottom] at ih ⊢
    rw [List.getLast?_cons_cons]
    cases hrest : updateBottom f (g :: rest) with
    | nil =>
      cases rest with
      | nil => simp [updateBottom] at hrest
      | cons r rest2 => simp [updateBottom] at hrest
    | cons b m =>
      rw [List.getLast?_cons_cons]
      rw [← hrest]
      exact ih

theorem updateBottom_ne_nil (f : Frame → Frame) : ∀ (l : List Frame), l ≠ [] →
    updateBottom f l ≠ []
  | [], h => absurd rfl h
  | [fr], _ => by simp [updateBottom]
  | fr :: g :: rest, _ => by simp [updateBottom]

theorem getRootD_updateRootData (g : PartialLogSection → PartialLogSection) (st : ParseState) :
    getRootD (updateRootData g st) = (getRootD st).map g := by
  unfold getRootD updateRootData
  cases hp : st.popped with
  | some fr => simp
  | none =>
    simp only [updateBottom_getLast?]
    cases st.stack.getLast? <;> simp

theorem updateRootData_firstTs (g : PartialLogSection → PartialLogSection) (s : ParseState) :
    (updateRootData g s).firstTs = s.firstTs := by
  unfold updateRootData; cases s.popped <;> simp

theorem updateRootData_lastTs (g : PartialLogSection → PartialLogSection) (s : ParseState) :
    (updateRootData g s).lastTs = s.lastTs := by
  unfold updateRootData; cases s.popped <;> simp

theorem updateRootData_lastLine (g : PartialLogSection → PartialLogSection) (s : ParseState) :
    (updateRootData g s).lastLine = s.lastLine := by
  unfold updateRootData; cases s.popped <;> simp

theorem updateRootData_warnings (g : PartialLogSection → PartialLogSection) (s : ParseState) :
    (updateRootData g s).warnings = s.warnings := by
  unfold updateRootData; cases s.popped <;> simp

theorem bumpTs_firstTs (ts : Nat) (st : ParseState) :
    (bumpTs ts st).firstTs = st.firstTs.or (some ts) := by
  unfold bumpTs
  cases hf : st.firstTs with
  | none => simp [updateRootData_firstTs]
  | some t0 => simp [hf]

theorem bumpTs_lastTs (ts : Nat) (st : ParseState) :
    (bumpTs ts st).lastTs = some ts := by
  unfold bumpTs
  cases hf : st.firstTs with
  | none => simp
  | some t0 => simp [hf]

theorem bumpTs_lastLine (ts : Nat) (st : ParseState) :
    (bumpTs ts st).lastLine = st.lastLine := by
  unfold bumpTs
  cases hf : st.firstTs with
  | none => simp [updateRootData_lastLine]
  | some t0 => simp [hf]

theorem bumpTs_warnings (ts : Nat) (st : ParseState) :
    (bumpTs ts st).warnings = st.warnings := by
  unfold bumpTs
  cases hf : st.firstTs with
  | none => simp [updateRootData_warnings]
  | some t0 => simp [hf]

theorem bumpTs_popped_none (ts : Nat) (st : ParseState) (h : st.popped = none) :
    (bumpTs ts st).popped = none ∧
      ((bumpTs ts st).stack = st.stack ∨
        (bumpTs ts st).stack =
          updateBottom (fun fr => { fr with data := { fr.data with start_time := some ts } })
            st.stack) := by
  unfold bumpTs
  cases hf : st.firstTs with
  | none =>
    simp only [hf, Option.isNone_none, if_pos]
    unfold updateRootData
    simp [h]
  | some t0 => simp [hf, h]

theorem bumpTs_popped_some (ts : Nat) (st : ParseState) (fr : Frame) (h : st.popped = some fr) :
    (bumpTs ts st).stack = st.stack ∧
      ∃ fr2, (bumpTs ts st).popped = some fr2 ∧ fr2.children = fr.children := by
  unfold bumpTs
  cases hf : st.firstTs with
  | none =>
    simp only [hf, Option.isNone_none, if_pos]
    unfold updateRootData
    simp [h]
  | some t0 => simp [hf, h]

theorem bumpTs_RootTs (ts : Nat) (st : ParseState) (h : RootTs st) :
    RootTs (bumpTs ts st) := by
  obtain ⟨d, hd, hds⟩ := h
  cases hf : st.firstTs with
  | none =>
    refine ⟨{ d with start_time := some ts }, ?_, ?_⟩
    · unfold bumpTs
      simp only [hf, Option.isNone_none, if_pos]
      have h3 : ∀ (su : ParseState), getRootD { su with lastTs := some ts } = getRootD su := by
        intro su; unfold getRootD; rfl
      rw [h3, getRootD_updateRootData]
      have h1 : getRootD { st with firstTs := some ts } = getRootD st := by
        unfold getRootD; rfl
      rw [h1, hd]
      rfl
    · rw [bumpTs_firstTs, hf]
      rfl
  | some t0 =>
    refine ⟨d, ?_, ?_⟩
    · unfold bumpTs
      simp only [hf]
      have h3 : ∀ (su : ParseState), getRootD { su with lastTs := some ts } = getRootD su := by
        intro su; unfold getRootD; rfl
      simpa [h3] using hd
    · rw [bumpTs_firstTs, hf]
      simpa [hf] using hds

theorem stackOK_frLo (hi : Nat) (cur : Frame) (rest : List Frame)
    (h : stackOK hi (cur :: rest)) : frLo cur = 1 ∨ frLo cur ≤ hi := by
  cases rest with
  | nil =>
    obtain ⟨h1, _, _, _⟩ := h
    left; simp [frLo, h1]
  | cons g rest2 =>
    obtain ⟨⟨s, hs, _, hs2, _, _⟩, _, _, _⟩ := h
    right; simpa [frLo, hs] using hs2

theorem closedIn_msg (lo hi : Nat) (m : LogMessage) : closedIn lo hi (.msg m) = true := by
  simp [closedIn]

theorem stepBody_fields (mt : Option (String → String)) (st : ParseState)
    (n ts : Nat) (lv msg : String) (st' : ParseState)
    (h : stepBody mt st n ts lv msg = .ok st') :
    st'.firstTs = st.firstTs ∧ st'.lastTs = st.lastTs ∧ st'.lastLine = st.lastLine := by
  unfold stepBody at h
  split at h
  · exact absurd h (by simp)
  · split at h
    · simp only [Except.ok.injEq] at h; subst h; exact ⟨rfl, rfl, rfl⟩
    · split at h
      · split at h
        · split at h
          · simp only [Except.ok.injEq] at h; subst h; exact ⟨rfl, rfl, rfl⟩
          · simp only [Except.ok.injEq] at h; subst h; exact ⟨rfl, rfl, rfl⟩
        · simp only [Except.ok.injEq] at h; subst h; exact ⟨rfl, rfl, rfl⟩
      · simp only [Except.ok.injEq] at h; subst h; exact ⟨rfl, rfl, rfl⟩

theorem getLast?_map_data_children (parent : Frame) (ch : List PTree) (rest2 : List Frame) :
    (({ parent with children := ch } :: rest2).getLast?).map (fun fr => fr.data) =
      ((parent :: rest2).getLast?).map (fun fr => fr.data) := by
  cases rest2 with
  | nil => simp
  | cons r rs => rw [List.getLast?_cons_cons, List.getLast?_cons_cons]

theorem stepBody_RootTs (mt : Option (String → String)) (st : ParseState)
    (n ts : Nat) (lv msg : String) (st' : ParseState)
    (hpop : ∀ fr, st.popped = some fr → st.stack = [])
    (h : stepBody mt st n ts lv msg = .ok st') (hr : RootTs st) : RootTs st' := by
  obtain ⟨d, hd, hds⟩ := hr
  unfold stepBody at h
  split at h
  · exact absurd h (by simp)
  next cur rest hstk =>
    have hpn : st.popped = none := by
      cases hp : st.popped with
      | none => rfl
      | some fr =>
        have := hpop fr hp
        rw [this] at hstk
        exact absurd hstk (by simp)
    have hgr : getRootD st = (st.stack.getLast?).map (fun fr => fr.data) := by
      unfold getRootD; rw [hpn]
    split at h
    · simp only [Except.ok.injEq] at h
      subst h
      refine ⟨d, ?_, hds⟩
      simp only [getRootD, hpn]
      rw [List.getLast?_cons_cons, ← hstk, ← hgr, hd]
    · split at h
      · split at h
        · split at h
          · -- rest = [] : the root itself is closed and popped
            simp only [Except.ok.injEq] at h
            subst h
            have hd2 : d = cur.data := by
              rw [hgr, hstk] at hd
              simp at hd
              exact hd.symm
            refine ⟨{ cur.data with end_time := some ts, end_line := some n }, ?_, ?_⟩
            · simp [getRootD]
            · show cur.data.start_time = st.firstTs
              rw [← hd2]; exact hds
          · -- rest = parent :: rest2 : close the top section into its parent
            rename_i parent rest2
            simp only [Except.ok.injEq] at h
            subst h
            refine ⟨d, ?_, hds⟩
            simp only [getRootD, hpn]
            rw [getLast?_map_data_children]
            rw [hgr, hstk] at hd
            rw [List.getLast?_cons_cons] at hd
            exact hd
        · simp only [Except.ok.injEq] at h
          subst h
          exact ⟨d, by rw [← hd]; rfl, hds⟩
      · simp only [Except.ok.injEq] at h
        subst h
        refine ⟨d, ?_, hds⟩
        simp only [getRootD, hpn]
        rw [getLast?_map_data_children]
        rw [hgr, hstk] at hd
        exact hd

theorem stepBody_StInv (mt : Option (String → String)) (st : ParseState)
    (n ts : Nat) (lv msg : String) (st' : ParseState)
    (hn : 1 ≤ n) (hll : st.lastLine = some n) (hlt : st.lastTs.isSome = true)
    (hpopN : st.popped = none → st.stack ≠ [] ∧ stackOK (n - 1) st.stack)
    (hpopS : ∀ fr, st.popped = some fr → st.stack = [] ∧ closedInList 1 (n - 1) fr.children = true)
    (h : stepBody mt st n ts lv msg = .ok st') :
    StInv (n + 1) st' := by
  have hsub : n - 1 ≤ n := Nat.sub_le n 1
  have hne1 : ¬ (n + 1 = 1) := by omega
  unfold stepBody at h
  split at h
  · exact absurd h (by simp)
  next cur rest hstk =>
    have hpn : st.popped = none := by
      cases hp : st.popped with
      | none => rfl
      | some fr =>
        have := (hpopS fr hp).1
        rw [this] at hstk
        exact absurd hstk (by simp)
    have hsOK : stackOK (n - 1) (cur :: rest) := by
      rw [← hstk]; exact (hpopN hpn).2
    split at h
    · -- section start: push a fresh frame
      simp only [Except.ok.injEq] at h
      subst h
      refine ⟨by omega, by simp [hne1, hll], fun _ => by omega, fun _ => ⟨by simp, ?_⟩,
        fun fr hfr => by rw [hpn] at hfr; exact absurd hfr (by simp)⟩
      show stackOK ((n + 1) - 1) _
      simp only [Nat.add_sub_cancel]
      refine ⟨⟨n, rfl, hn, Nat.le_refl n, ?_, by simp [closedInList]⟩, rfl, rfl,
        stackOK_mono (cur :: rest) (n - 1) n hsub hsOK⟩
      rcases stackOK_frLo (n - 1) cur rest hsOK with h1 | h1
      · rw [h1]; exact hn
      · exact Nat.le_trans h1 hsub
    · split at h
      · split at h
        · split at h
          · -- end marker matches the root: pop the root itself
            simp only [Except.ok.injEq] at h
            subst h
            obtain ⟨hsl, het, hel, hch⟩ := hsOK
            refine ⟨by omega, by simp [hne1, hll], fun _ => by omega,
              fun hco => absurd hco (by simp), fun fr hfr => ?_⟩
            simp only [Option.some.injEq] at hfr
            subst hfr
            refine ⟨rfl, ?_, hlt⟩
            show closedInList 1 ((n + 1) - 1) cur.children = true
            simp only [Nat.add_sub_cancel]
            exact closedInList_mono cur.children 1 (n - 1) 1 n (Nat.le_refl 1) hsub hch
          · -- end marker matches an inner section: commit it to its parent
            rename_i parent rest2
            simp only [Except.ok.injEq] at h
            subst h
            obtain ⟨⟨s, hs, hs1, hs2, hs3, hs4⟩, hce, hcl, htail⟩ := hsOK
            have hsn : s ≤ n := Nat.le_trans hs2 hsub
            have hnewch : ∀ (lo : Nat), lo ≤ s →
                closedIn lo n (.sec { cur.data with end_time := some ts, end_line := some n }
                  cur.children) = true := by
              intro lo hlo
              simp only [closedIn, hs, Bool.and_eq_true, decide_eq_true_eq]
              exact ⟨⟨⟨hlo, hsn⟩, Nat.le_refl n⟩,
                closedInList_mono cur.children s (n - 1) s n (Nat.le_refl s) hsub hs4⟩
            refine ⟨by omega, by simp [hne1, hll], fun _ => by omega, fun _ => ⟨by simp, ?_⟩,
              fun fr hfr => by rw [hpn] at hfr; exact absurd hfr (by simp)⟩
            show stackOK ((n + 1) - 1) _
            simp only [Nat.add_sub_cancel]
            cases rest2 with
            | nil =>
              obtain ⟨p1, p2, p3, p4⟩ := htail
              refine ⟨p1, p2, p3, ?_⟩
              rw [closedInList_append]
              simp only [Bool.and_eq_true]
              refine ⟨closedInList_mono parent.children 1 (n - 1) 1 n (Nat.le_refl 1) hsub p4, ?_⟩
              simp only [closedInList, Bool.and_eq_true]
              exact ⟨hnewch 1 hs1, trivial⟩
            | cons g rest3 =>
              obtain ⟨⟨sp, hsp, hsp1, hsp2, hsp3, hsp4⟩, pe, pl, ptail⟩ := htail
              have hsps : sp ≤ s := by
                have : frLo parent = sp := by simp [frLo, hsp]
                rw [this] at hs3; exact hs3
              refine ⟨⟨sp, hsp, hsp1, Nat.le_trans hsp2 hsub, hsp3, ?_⟩, pe, pl,
                stackOK_mono (g :: rest3) (n - 1) n hsub ptail⟩
              rw [closedInList_append]
              simp only [Bool.and_eq_true]
              refine ⟨closedInList_mono parent.children sp (n - 1) sp n (Nat.le_refl sp) hsub hsp4, ?_⟩
              simp only [closedInList, Bool.and_eq_true]
              exact ⟨hnewch sp hsps, trivial⟩
        · -- unmatched end marker: warning only, stack untouched
          simp only [Except.ok.injEq] at h
          subst h
          refine ⟨by omega, by simp [hne1, hll], fun _ => by omega,
            fun _ => ⟨by rw [hstk]; simp, ?_⟩,
            fun fr hfr => by rw [hpn] at hfr; exact absurd hfr (by simp)⟩
          show stackOK ((n + 1) - 1) st.stack
          simp only [Nat.add_sub_cancel]
          rw [hstk]
          exact stackOK_mono (cur :: rest) (n - 1) n hsub hsOK
      · -- plain event: append a message to the current section
        simp only [Except.ok.injEq] at h
        subst h
        refine ⟨by omega, by simp [hne1, hll], fun _ => by omega, fun _ => ⟨by simp, ?_⟩,
          fun fr hfr => by rw [hpn] at hfr; exact absurd hfr (by simp)⟩
        show stackOK ((n + 1) - 1) _
        simp only [Nat.add_sub_cancel]
        cases rest with
        | nil =>
          obtain ⟨c1, c2, c3, c4⟩ := hsOK
          refine ⟨c1, c2, c3, ?_⟩
          rw [closedInList_append]
          simp only [Bool.and_eq_true]
          exact ⟨closedInList_mono cur.children 1 (n - 1) 1 n (Nat.le_refl 1) hsub c4,
            by simp [closedInList, closedIn]⟩
        | cons g rest2 =>
          obtain ⟨⟨s, hs, hs1, hs2, hs3, hs4⟩, e2, e3, etail⟩ := hsOK
          refine ⟨⟨s, hs, hs1, Nat.le_trans hs2 hsub, hs3, ?_⟩, e2, e3,
            stackOK_mono (g :: rest2) (n - 1) n hsub etail⟩
          rw [closedInList_append]
          simp only [Bool.and_eq_true]
          exact ⟨closedInList_mono cur.children s (n - 1) s n (Nat.le_refl s) hsub hs4,
            by simp [closedInList, closedIn]⟩

theorem firstTsOf_cons (l : String) (ls : List String) :
    firstTsOf (l :: ls) = (lineTs l).or (firstTsOf ls) := by
  show (match lineTs l with | some t => some t | none => firstTsOf ls) =
    (lineTs l).or (firstTsOf ls)
  cases lineTs l <;> rfl

theorem lastTsOf_cons (l : String) (ls : List String) :
    lastTsOf (l :: ls) = (lastTsOf ls).or (lineTs l) := by
  show (match lastTsOf ls with | some t => some t | none => lineTs l) =
    (lastTsOf ls).or (lineTs l)
  cases lastTsOf ls <;> rfl

theorem stepLine_main (mt : Option (String → String)) (st : ParseState) (n : Nat) (l : String)
    (st' : ParseState) (hI : StInv n st) (h : stepLine mt st n l = .ok st') :
    StInv (n + 1) st' ∧
    st'.firstTs = st.firstTs.or (lineTs l) ∧
    st'.lastTs = (lineTs l).or st.lastTs ∧
    (RootTs st → RootTs st') := by
  obtain ⟨hn, hll, hlt2, hpN, hpS⟩ := hI
  have hne1 : ¬ (n + 1 = 1) := by omega
  unfold stepLine at h
  split at h
  next hm =>
    simp only [Except.ok.injEq] at h
    subst h
    have hlts : lineTs l = none := by simp [lineTs, hm]
    refine ⟨⟨by omega, by simp [hne1], fun hs => by omega, fun hpo => ?_, fun fr hfr => ?_⟩,
      by simp [hlts, Option.or_none], by simp [hlts, Option.or], fun hr => hr⟩
    · obtain ⟨ha, hb⟩ := hpN hpo
      refine ⟨ha, ?_⟩
      show stackOK ((n + 1) - 1) st.stack
      simp only [Nat.add_sub_cancel]
      exact stackOK_mono st.stack (n - 1) n (Nat.sub_le n 1) hb
    · obtain ⟨ha, hb, hc⟩ := hpS fr hfr
      refine ⟨ha, ?_, hc⟩
      show closedInList 1 ((n + 1) - 1) fr.children = true
      simp only [Nat.add_sub_cancel]
      exact closedInList_mono fr.children 1 (n - 1) 1 n (Nat.le_refl 1) (Nat.sub_le n 1) hb
  next ts_str lv msg hm =>
    split at h
    next hp => exact absurd h (by simp)
    next ts hp =>
      have hlts : lineTs l = some ts := by simp [lineTs, hm, hp]
      obtain ⟨X, hX⟩ : ∃ X, ({ st with lastLine := some n } : ParseState) = X := ⟨_, rfl⟩
      rw [hX] at h
      have hXp : X.popped = st.popped := by rw [← hX]
      have hXs : X.stack = st.stack := by rw [← hX]
      have hXl : X.lastLine = some n := by rw [← hX]
      have hXf : X.firstTs = st.firstTs := by rw [← hX]
      have hXt : X.lastTs = st.lastTs := by rw [← hX]
      have hbl : (bumpTs ts X).lastLine = some n := by rw [bumpTs_lastLine, hXl]
      have hbt : (bumpTs ts X).lastTs = some ts := bumpTs_lastTs _ _
      have hbf : (bumpTs ts X).firstTs = st.firstTs.or (some ts) := by
        rw [bumpTs_firstTs, hXf]
      have hpopN2 : (bumpTs ts X).popped = none →
          (bumpTs ts X).stack ≠ [] ∧ stackOK (n - 1) (bumpTs ts X).stack := by
        intro hco
        cases hpo : st.popped with
        | some fr =>
          obtain ⟨_, fr2, hfr2, _⟩ := bumpTs_popped_some ts X fr (by rw [hXp, hpo])
          rw [hfr2] at hco
          exact absurd hco (by simp)
        | none =>
          obtain ⟨ha, hb⟩ := hpN hpo
          obtain ⟨_, hstk⟩ := bumpTs_popped_none ts X (by rw [hXp, hpo])
          cases hstk with
          | inl he =>
            rw [he, hXs]
            exact ⟨ha, hb⟩
          | inr he =>
            rw [he, hXs]
            exact ⟨updateBottom_ne_nil _ st.stack ha, updateBottom_startTime_data _ st.stack _ hb⟩
      have hpopS2 : ∀ fr', (bumpTs ts X).popped = some fr' →
          (bumpTs ts X).stack = [] ∧ closedInList 1 (n - 1) fr'.children = true := by
        intro fr' hfr'
        cases hpo : st.popped with
        | none =>
          obtain ⟨hnone, _⟩ := bumpTs_popped_none ts X (by rw [hXp, hpo])
          rw [hnone] at hfr'
          exact absurd hfr' (by simp)
        | some fr =>
          obtain ⟨hsame, fr2, hfr2, hch⟩ := bumpTs_popped_some ts X fr (by rw [hXp, hpo])
          obtain ⟨ha, hb, _⟩ := hpS fr hpo
          rw [hfr2] at hfr'
          simp only [Option.some.injEq] at hfr'
          subst hfr'
          rw [hsame, hXs, hch]
          exact ⟨ha, hb⟩
      obtain ⟨hf1, hf2, hf3⟩ := stepBody_fields mt _ n ts lv msg st' h
      refine ⟨stepBody_StInv mt _ n ts lv msg st' hn hbl (by rw [hbt]; rfl) hpopN2 hpopS2 h,
        ?_, ?_, ?_⟩
      · rw [hf1, hbf, hlts]
      · rw [hf2, hbt, hlts]
        cases st.lastTs <;> simp [Option.or]
      · intro hr
        refine stepBody_RootTs mt _ n ts lv msg st' (fun fr hfr => (hpopS2 fr hfr).1) h ?_
        apply bumpTs_RootTs
        obtain ⟨d, hd, hds⟩ := hr
        refine ⟨d, ?_, ?_⟩
        · rw [← hX]
          show (match st.popped with
            | some fr => some fr.data
            | none => (st.stack.getLast?).map (fun fr => fr.data)) = some d
          rw [← hd]
          rfl
        · rw [hXf]
          exact hds

theorem runLines_main : ∀ (lines : List String) (mt : Option (String → String)) (n : Nat)
    (st st' : ParseState), runLines mt n st lines = (st', none) → StInv n st →
    StInv (n + lines.length) st' ∧
    st'.firstTs = st.firstTs.or (firstTsOf lines) ∧
    st'.lastTs = (lastTsOf lines).or st.lastTs ∧
    (RootTs st → RootTs st')
  | [] => by
    intro mt n st st' h hI
    simp only [runLines, Prod.mk.injEq] at h
    rw [← h.1]
    refine ⟨by simpa using hI, ?_, ?_, fun hr => hr⟩
    · show st.firstTs = st.firstTs.or (firstTsOf [])
      simp [firstTsOf, Option.or_none]
    · show st.lastTs = (lastTsOf []).or st.lastTs
      simp [lastTsOf, Option.or]
  | l :: ls => by
    intro mt n st st' h hI
    simp only [runLines] at h
    cases hs : stepLine mt st n l with
    | error e => rw [hs] at h; simp at h
    | ok st1 =>
      rw [hs] at h
      obtain ⟨hI1, hf1, hl1, hr1⟩ := stepLine_main mt st n l st1 hI hs
      obtain ⟨hI2, hf2, hl2, hr2⟩ := runLines_main ls mt (n + 1) st1 st' h hI1
      refine ⟨?_, ?_, ?_, fun hr => hr2 (hr1 hr)⟩
      · have harith : n + (l :: ls).length = (n + 1) + ls.length := by
          simp [List.length_cons]; omega
        rw [harith]
        exact hI2
      · rw [hf2, hf1, Option.or_assoc, ← firstTsOf_cons]
      · rw [hl2, hl1, ← Option.or_assoc, ← lastTsOf_cons]

theorem initState_StInv : StInv 1 initState := by
  refine ⟨Nat.le_refl 1, rfl, ?_, ?_, ?_⟩
  · intro hs; simp [initState] at hs
  · intro _
    refine ⟨by simp [initState], ?_⟩
    show stackOK 0 [⟨⟨"root", none, none, none, none⟩, []⟩]
    exact ⟨rfl, rfl, rfl, by simp [closedInList]⟩
  · intro fr hfr; simp [initState] at hfr

theorem initState_RootTs : RootTs initState :=
  ⟨⟨"root", none, none, none, none⟩, rfl, rfl⟩

theorem convertEntry_sec_ok (d : PartialLogSection) (ch : List PTree) (r : RTree)
    (h : convertEntry (.sec d ch) = .ok r) :
    ∃ a b c e rs, d.start_time = some a ∧ d.end_time = some b ∧ d.start_line = some c ∧
      d.end_line = some e ∧ convertList ch = .ok rs ∧ r = .sec ⟨d.name, a, b, c, e⟩ rs := by
  unfold convertEntry at h
  split at h
  next a b c e hst het hsl hel =>
    split at h
    next rs hrs =>
      simp only [Except.ok.injEq] at h
      exact ⟨a, b, c, e, rs, hst, het, hsl, hel, hrs, h.symm⟩
    next s hrs => exact absurd h (by simp)
  next => exact absurd h (by simp)

theorem sealRoot_popped_none (st : ParseState) (h : st.popped = none) :
    (sealRoot st).popped = none := by
  unfold sealRoot
  split
  · split
    · exact h
    · unfold updateRootData; rw [h]
  · exact h

theorem sealRoot_warnings (st : ParseState) : (sealRoot st).warnings = st.warnings := by
  unfold sealRoot
  split
  · split
    · rfl
    · exact updateRootData_warnings _ _
  · rfl

theorem hasOpen_not_ok_root (t : PTree) (r : RTree) (ho : hasOpen t = true) :
    convertPartialTreeToRegularTree t ≠ .ok r := by
  cases t with
  | msg m => simp [convertPartialTreeToRegularTree]
  | sec d ch =>
    show convertEntry (.sec d ch) ≠ .ok r
    exact hasOpen_not_ok (.sec d ch) ho r

theorem convertRoot_sec (d : PartialLogSection) (ch : List PTree) :
    convertPartialTreeToRegularTree (.sec d ch) = convertEntry (.sec d ch) := rfl

theorem parse_ok_characterization (mt : Option (String → String)) (lines : List String)
    (t : RTree) (h : (parse_logs mt lines).2 = .ok t) :
    ∃ d ch, t = RTree.sec d ch ∧ d.start_line = 1 ∧ d.end_line = lines.length ∧
      firstTsOf lines = some d.start_time ∧ lastTsOf lines = some d.end_time ∧
      sectionInv t = true := by
  unfold parse_logs at h
  cases hr : runLines mt 1 initState lines with
  | mk st eo =>
    rw [hr] at h
    cases eo with
    | some e => simp at h
    | none =>
      simp only [] at h
      obtain ⟨hI, hf, hl, hroot⟩ := runLines_main lines mt 1 initState st hr initState_StInv
      have hf2 : st.firstTs = firstTsOf lines := by
        rw [hf]; show Option.or none _ = _; cases firstTsOf lines <;> rfl
      have hl2 : st.lastTs = lastTsOf lines := by
        rw [hl]; show Option.or _ none = _; exact Option.or_none
      obtain ⟨hn1, hll, hltn, hpN, hpS⟩ := hI
      have hNsub : 1 + lines.length - 1 = lines.length := by omega
      cases hcv : convertPartialTreeToRegularTree (buildPTree (sealRoot st)) with
      | error m => rw [hcv] at h; simp at h
      | ok t2 =>
        rw [hcv] at h
        simp only [Except.ok.injEq] at h
        subst h
        obtain ⟨d0, hd0, hd0s⟩ := hroot initState_RootTs
        cases hpo : st.popped with
        | some fr =>
          obtain ⟨hstk0, hch, hlts⟩ := hpS fr hpo
          rw [hNsub] at hch
          have hN1 : 1 ≤ lines.length := by
            have := hltn hlts; omega
          have hlln : st.lastLine = some lines.length := by
            rw [hll]
            have hx : ¬ (1 + lines.length = 1) := by omega
            simp [hx, hNsub]
          obtain ⟨tL, hlt2⟩ : ∃ tL, st.lastTs = some tL := by
            cases hx : st.lastTs with
            | none => rw [hx] at hlts; simp at hlts
            | some tL => exact ⟨tL, rfl⟩
          have hseal : sealRoot st = updateRootData (sealFields lines.length tL) st := by
            unfold sealRoot
            rw [hlt2, hlln]
            have hx : ¬ (lines.length = 0) := by omega
            simp only [hx, if_false]
            rfl
          have hd0fr : d0 = fr.data := by
            unfold getRootD at hd0
            rw [hpo] at hd0
            simp only [Option.some.injEq] at hd0
            exact hd0.symm
          have hbuild : buildPTree (sealRoot st) =
              .sec (sealFields lines.length tL fr.data) fr.children := by
            rw [hseal]
            unfold updateRootData
            rw [hpo]
            unfold buildPTree
            simp
          rw [hbuild] at hcv
          rw [convertRoot_sec] at hcv
          obtain ⟨a, b, c, e, rs, hst, het, hsl, hel, hrs, ht2⟩ :=
            convertEntry_sec_ok _ _ _ hcv
          simp only [sealFields, Option.some.injEq] at hst het hsl hel
          refine ⟨_, rs, ht2, by simp [← hsl], by simp [← hel], ?_, ?_, ?_⟩
          · show firstTsOf lines = some a
            rw [← hf2, ← hd0s, hd0fr]
            exact hst
          · show lastTsOf lines = some b
            rw [← hl2, hlt2, het]
          · have hcl : closedIn 1 lines.length
                (.sec (sealFields lines.length tL fr.data) fr.children) = true := by
              simp only [closedIn, sealFields, Bool.and_eq_true, decide_eq_true_eq]
              exact ⟨⟨⟨Nat.le_refl 1, hN1⟩, Nat.le_refl _⟩, hch⟩
            rw [ht2]
            refine rIn_sectionInv _ 1 lines.length ?_
            rw [← ht2]
            exact convertEntry_rIn _ _ 1 lines.length hcl hcv
        | none =>
          obtain ⟨hne, hsOK⟩ := hpN hpo
          rw [hNsub] at hsOK
          cases hstk : st.stack with
          | nil => exact absurd hstk hne
          | cons fr rest =>
            rw [hstk] at hsOK
            cases rest with
            | cons g rest2 =>
              exfalso
              obtain ⟨⟨s, hs, _, _, _, _⟩, hce, hcl, htail⟩ := hsOK
              have hopen : hasOpen (.sec fr.data fr.children) = true := by
                simp [hasOpen, hcl]
              have hex : ∃ tail, (sealRoot st).stack = fr :: tail := by
                unfold sealRoot
                split
                · split
                  · exact ⟨g :: rest2, hstk⟩
                  · unfold updateRootData
                    rw [hpo]
                    show ∃ tail, updateBottom _ st.stack = fr :: tail
                    rw [hstk]
                    simp only [updateBottom]
                    exact ⟨_, rfl⟩
                · exact ⟨g :: rest2, hstk⟩
              obtain ⟨tail, htail2⟩ := hex
              have hbuild : buildPTree (sealRoot st) = collapse fr tail := by
                unfold buildPTree
                rw [sealRoot_popped_none st hpo, htail2]
              have hopen2 : hasOpen (buildPTree (sealRoot st)) = true := by
                rw [hbuild]
                exact collapse_hasOpen tail fr hopen
              exact hasOpen_not_ok_root _ t2 hopen2 hcv
            | nil =>
              obtain ⟨hsln, hetn, heln, hch⟩ := hsOK
              cases hlt3 : st.lastTs with
              | none =>
                exfalso
                have hseal : sealRoot st = st := by
                  unfold sealRoot; rw [hlt3]
                have hbuild : buildPTree (sealRoot st) = .sec fr.data fr.children := by
                  rw [hseal]
                  unfold buildPTree
                  rw [hpo, hstk]
                  rfl
                rw [hbuild] at hcv
                rw [convertRoot_sec] at hcv
                obtain ⟨a, b, c, e, rs, hst, het, hsl, hel, hrs, ht2⟩ :=
                  convertEntry_sec_ok _ _ _ hcv
                rw [hetn] at het
                exact absurd het (by simp)
              | some tL =>
                have hlts : st.lastTs.isSome = true := by rw [hlt3]; rfl
                have hN1 : 1 ≤ lines.length := by
                  have := hltn hlts; omega
                have hlln : st.lastLine = some lines.length := by
                  rw [hll]
                  have hx : ¬ (1 + lines.length = 1) := by omega
                  simp [hx, hNsub]
                have hseal : sealRoot st = updateRootData (sealFields lines.length tL) st := by
                  unfold sealRoot
                  rw [hlt3, hlln]
                  have hx : ¬ (lines.length = 0) := by omega
                  simp only [hx, if_false]
                  rfl
                have hbuild : buildPTree (sealRoot st) =
                    .sec (sealFields lines.length tL fr.data) fr.children := by
                  rw [hseal]
                  unfold updateRootData buildPTree
                  rw [hpo]
                  simp only []
                  rw [hstk]
                  simp [updateBottom, collapse]
                have hd0fr : d0 = fr.data := by
                  unfold getRootD at hd0
                  rw [hpo, hstk] at hd0
                  simp at hd0
                  exact hd0.symm
                rw [hbuild] at hcv
                rw [convertRoot_sec] at hcv
                obtain ⟨a, b, c, e, rs, hst, het, hsl, hel, hrs, ht2⟩ :=
                  convertEntry_sec_ok _ _ _ hcv
                simp only [sealFields, Option.some.injEq] at hst het hsl hel
                refine ⟨_, rs, ht2, by simp [← hsl], by simp [← hel], ?_, ?_, ?_⟩
                · show firstTsOf lines = some a
                  rw [← hf2, ← hd0s, hd0fr]
                  exact hst
                · show lastTsOf lines = some b
                  rw [← hl2, hlt3, het]
                · have hcl : closedIn 1 lines.length
                      (.sec (sealFields lines.length tL fr.data) fr.children) = true := by
                    simp only [closedIn, sealFields, Bool.and_eq_true, decide_eq_true_eq]
                    exact ⟨⟨⟨Nat.le_refl 1, hN1⟩, Nat.le_refl _⟩, hch⟩
                  rw [ht2]
                  refine rIn_sectionInv _ 1 lines.length ?_
                  rw [← ht2]
                  exact convertEntry_rIn _ _ 1 lines.length hcl hcv

theorem parse_open_at_eof (mt : Option (String → String)) (lines : List String)
    (st : ParseState) (hr : runLines mt 1 initState lines = (st, none))
    (hlen : 2 ≤ st.stack.length) :
    parse_logs mt lines = (st.warnings, .error (.assertionError "")) := by
  obtain ⟨hI, _, _, _⟩ := runLines_main lines mt 1 initState st hr initState_StInv
  obtain ⟨hn1, hll, hltn, hpN, hpS⟩ := hI
  cases hstk : st.stack with
  | nil => rw [hstk] at hlen; simp at hlen
  | cons fr rest =>
    cases rest with
    | nil => rw [hstk] at hlen; simp at hlen
    | cons g rest2 =>
      have hpo : st.popped = none := by
        cases hp : st.popped with
        | none => rfl
        | some fr2 =>
          have := (hpS fr2 hp).1
          rw [this] at hstk
          exact absurd hstk (by simp)
      obtain ⟨hne, hsOK⟩ := hpN hpo
      rw [hstk] at hsOK
      obtain ⟨⟨s, hs, _, _, _, _⟩, hce, hcl, htail⟩ := hsOK
      have hopen : hasOpen (.sec fr.data fr.children) = true := by
        simp [hasOpen, hcl]
      have hex : ∃ tail, (sealRoot st).stack = fr :: tail := by
        unfold sealRoot
        split
        · split
          · exact ⟨g :: rest2, hstk⟩
          · unfold updateRootData
            rw [hpo]
            show ∃ tail, updateBottom _ st.stack = fr :: tail
            rw [hstk]
            simp only [updateBottom]
            exact ⟨_, rfl⟩
        · exact ⟨g :: rest2, hstk⟩
      obtain ⟨tail, htail2⟩ := hex
      have hbuild : buildPTree (sealRoot st) = collapse fr tail := by
        unfold buildPTree
        rw [sealRoot_popped_none st hpo, htail2]
      have hopen2 : hasOpen (buildPTree (sealRoot st)) = true := by
        rw [hbuild]
        exact collapse_hasOpen tail fr hopen
      unfold parse_logs
      rw [hr]
      simp only []
      cases hcv : convertPartialTreeToRegularTree (buildPTree (sealRoot st)) with
      | ok t2 => exact absurd hcv (hasOpen_not_ok_root _ t2 hopen2)
      | error m =>
        have hm : m = "" := by
          cases hbp : buildPTree (sealRoot st) with
          | msg m2 =>
            rw [hbp] at hcv
            unfold convertPartialTreeToRegularTree at hcv
            simp only [Except.error.injEq] at hcv
            exact hcv.symm
          | sec d ch =>
            rw [hbp, convertRoot_sec] at hcv
            exact convertEntry_error_msg _ m hcv
        rw [hm, sealRoot_warnings]

theorem runLines_nomatch (mt : Option (String → String)) :
    ∀ (lines : List String) (n : Nat) (st : ParseState),
      (∀ l ∈ lines, matchTimestamp (pyStrip l) = none) →
      runLines mt n st lines =
        ((if lines.isEmpty then st else { st with lastLine := some (n + lines.length - 1) }), none)
  | [] => by intro n st _; simp [runLines]
  | l :: ls => by
    intro n st hall
    have hm : matchTimestamp (pyStrip l) = none := hall l (by simp)
    have hstep : stepLine mt st n l = .ok { st with lastLine := some n } := by
      unfold stepLine
      rw [hm]
    simp only [runLines, hstep]
    rw [runLines_nomatch mt ls (n + 1) _ (fun x hx => hall x (by simp [hx]))]
    cases hls : ls.isEmpty with
    | true =>
      have : ls = [] := by cases ls with | nil => rfl | cons a b => simp at hls
      subst this
      simp
    | false =>
      have hlen : 1 ≤ ls.length := by
        cases ls with | nil => simp at hls | cons a b => simp
      have h1 : n + 1 + ls.length - 1 = n + (ls.length + 1) - 1 := by omega
      simp [h1]

theorem parse_no_timestamp (mt : Option (String → String)) (lines : List String)
    (hall : ∀ l ∈ lines, matchTimestamp (pyStrip l) = none) :
    parse_logs mt lines = ([], .error (.assertionError "")) := by
  unfold parse_logs
  rw [runLines_nomatch mt lines 1 initState hall]
  cases hls : lines.isEmpty with
  | true =>
    simp only [hls, if_true]
    rfl
  | false =>
    simp only [hls, if_false]
    rfl

/-! ## Claim theorems -/

/-- C7: for the three-line input `=== start A === {` / `hello` /
`=== end A === }` (with the canonical timestamps), `parse_logs` returns a
sealed root with exactly one child section `A` with `start_time`
00:00:00.000000, `end_time` 00:00:01.000000 and duration 1,000,000
microseconds, containing exactly one event `"hello"` at 00:00:00.500000. -/
theorem C7_concrete_scenario :
    parse_logs none
      ["[00:00:00.000000] [INFO] === start A === \x7b",
       "[00:00:00.500000] [INFO] hello",
       "[00:00:01.000000] [INFO] === end A === \x7d"] =
      ([], .ok (RTree.sec ⟨"root", 0, 1000000, 1, 3⟩
        [RTree.sec ⟨"A", 0, 1000000, 1, 3⟩
          [RTree.msg ⟨500000, "INFO", "hello"⟩]])) ∧
    LogSection.duration_microseconds ⟨"A", 0, 1000000, 1, 3⟩ = 1000000 := by
  constructor
  · simp [parse_logs, runLines, stepLine, stepBody, bumpTs, initState, matchTimestamp, pyStrip,
      isSpace, matchG1, matchG2, parseTime, parseField, parseFrac, digitsToNat, stripBarsStr,
      stripBars, applyMT, matchStart, matchEnd, tailEnd, findName, goWs, afterKeyword,
      updateRootData, updateBottom, sealRoot, sealFields, buildPTree, collapse,
      convertPartialTreeToRegularTree, convertEntry, convertList, warnMsg]
  · rfl

/-- C9 (implicit): an `=== end root === }` line arriving while only the
synthesized root is open closes and pops the root, so the next
timestamped line indexes an empty stack and `parse_logs` raises an
unhandled `IndexError` — no tree and no warning are produced. -/
theorem C9_end_root_indexerror :
    parse_logs none
      ["[00:00:00.000000] [INFO] === end root === \x7d",
       "[00:00:01.000000] [INFO] hello"] =
      ([], .error .indexError) := by
  simp [parse_logs, runLines, stepLine, stepBody, bumpTs, initState, matchTimestamp, pyStrip,
    isSpace, matchG1, matchG2, parseTime, parseField, parseFrac, digitsToNat, stripBarsStr,
    stripBars, applyMT, matchStart, matchEnd, tailEnd, findName, goWs, afterKeyword,
    updateRootData, updateBottom, sealRoot, sealFields, buildPTree, collapse,
    convertPartialTreeToRegularTree, convertEntry, convertList, warnMsg]

/-- C2 (code bug evaluation): the spec promises that the root is never
closed or popped by an end marker and that the stack never empties, but
on the input below the `=== end root === }` marker matches the
top-of-stack name "root", the root is popped, and the next timestamped
line raises `IndexError`. -/
theorem C2_end_root_pops_root :
    parse_logs none
      ["[00:00:00.000000] [INFO] === end root === \x7d",
       "[00:00:01.000000] [INFO] x"] =
      ([], .error .indexError) := by
  simp [parse_logs, runLines, stepLine, stepBody, bumpTs, initState, matchTimestamp, pyStrip,
    isSpace, matchG1, matchG2, parseTime, parseField, parseFrac, digitsToNat, stripBarsStr,
    stripBars, applyMT, matchStart, matchEnd, tailEnd, findName, goWs, afterKeyword,
    updateRootData, updateBottom, sealRoot, sealFields, buildPTree, collapse,
    convertPartialTreeToRegularTree, convertEntry, convertList, warnMsg]

/-- C6: for every input on which `parse_logs` returns a sealed tree,
every sealed section satisfies `start_line ≤ end_line` and its line
range contains the line ranges of all its child sections. -/
theorem C6_nesting_invariant (mt : Option (String → String)) (lines : List String) (t : RTree)
    (h : (parse_logs mt lines).2 = .ok t) : sectionInv t = true := by
  obtain ⟨d, ch, ht, _, _, _, _, hinv⟩ := parse_ok_characterization mt lines t h
  exact hinv

/-- Witness for C6 at a concrete nested input. -/
theorem C6_nesting_invariant_witness :
    sectionInv (RTree.sec ⟨"root", 0, 3000000, 1, 4⟩
      [RTree.sec ⟨"Outer", 0, 3000000, 1, 4⟩
        [RTree.sec ⟨"Inner", 1000000, 2000000, 2, 3⟩ []]]) = true :=
  C6_nesting_invariant none
    ["[00:00:00.000000] [INFO] === start Outer === \x7b",
     "[00:00:01.000000] [INFO] === start Inner === \x7b",
     "[00:00:02.000000] [INFO] === end Inner === \x7d",
     "[00:00:03.000000] [INFO] === end Outer === \x7d"] _
    (by simp [parse_logs, runLines, stepLine, stepBody, bumpTs, initState, matchTimestamp,
      pyStrip, isSpace, matchG1, matchG2, parseTime, parseField, parseFrac, digitsToNat,
      stripBarsStr, stripBars, applyMT, matchStart, matchEnd, tailEnd, findName, goWs,
      afterKeyword, updateRootData, updateBottom, sealRoot, sealFields, buildPTree, collapse,
      convertPartialTreeToRegularTree, convertEntry, convertList, warnMsg])

/-- C4: for every input with at least one timestamped line on which
`parse_logs` returns a sealed tree, the sealed root has `start_line` 1,
`end_line` equal to the total number of lines of the source,
`start_time` the timestamp of the first timestamped line and `end_time`
the timestamp of the last timestamped line. -/
theorem C4_root_fields (mt : Option (String → String)) (lines : List String) (t : RTree)
    (hts : (firstTsOf lines).isSome = true) (h : (parse_logs mt lines).2 = .ok t) :
    ∃ d ch, t = RTree.sec d ch ∧ d.start_line = 1 ∧ d.end_line = lines.length ∧
      firstTsOf lines = some d.start_time ∧ lastTsOf lines = some d.end_time := by
  obtain ⟨d, ch, ht, h1, h2, h3, h4, _⟩ := parse_ok_characterization mt lines t h
  exact ⟨d, ch, ht, h1, h2, h3, h4⟩

/-- Witness for C4 at a concrete one-line input. -/
theorem C4_root_fields_witness :
    (firstTsOf ["[00:00:05.000000] [WARN] boot"]).isSome = true ∧
    ∃ d ch, (RTree.sec ⟨"root", 5000000, 5000000, 1, 1⟩
        [RTree.msg ⟨5000000, "WARN", "boot"⟩] : RTree) = RTree.sec d ch ∧
      d.start_line = 1 ∧ d.end_line = (["[00:00:05.000000] [WARN] boot"] : List String).length ∧
      firstTsOf ["[00:00:05.000000] [WARN] boot"] = some d.start_time ∧
      lastTsOf ["[00:00:05.000000] [WARN] boot"] = some d.end_time :=
  ⟨by rfl,
   C4_root_fields none ["[00:00:05.000000] [WARN] boot"] _ (by rfl)
    (by simp [parse_logs, runLines, stepLine, stepBody, bumpTs, initState, matchTimestamp,
      pyStrip, isSpace, matchG1, matchG2, parseTime, parseField, parseFrac, digitsToNat,
      stripBarsStr, stripBars, applyMT, matchStart, matchEnd, tailEnd, findName, goWs,
      afterKeyword, updateRootData, updateBottom, sealRoot, sealFields, buildPTree, collapse,
      convertPartialTreeToRegularTree, convertEntry, convertList, warnMsg])⟩

/-- C10 (implicit): for every input with no line matching the timestamp
pattern (including the empty file), the root is never closed and
`parse_logs` fails with the sealing assertion (an `AssertionError`)
instead of returning an empty sealed root. -/
theorem C10_no_timestamp_fatal (mt : Option (String → String)) (lines : List String)
    (hall : ∀ l ∈ lines, matchTimestamp (pyStrip l) = none) :
    parse_logs mt lines = ([], .error (.assertionError "")) :=
  parse_no_timestamp mt lines hall

/-- Witness for C10 at a concrete one-line input. -/
theorem C10_no_timestamp_fatal_witness :
    parse_logs none ["hello world"] = ([], .error (.assertionError "")) :=
  C10_no_timestamp_fatal none ["hello world"] (by decide)

/-- C3 counterexample: on a two-line input whose second line has no
timestamp, the sealed root's `end_line` is 2 — the file's last line —
not 1, the line number of the last timestamped line as the claim
states. -/
theorem C3_trailing_nomatch_counterexample :
    parse_logs none ["[00:00:00.000000] [INFO] hello", "no timestamp here"] =
      ([], .ok (RTree.sec ⟨"root", 0, 0, 1, 2⟩
        [RTree.msg ⟨0, "INFO", "hello"⟩])) ∧ (2 : Nat) ≠ 1 := by
  constructor
  · simp [parse_logs, runLines, stepLine, stepBody, bumpTs, initState, matchTimestamp, pyStrip,
      isSpace, matchG1, matchG2, parseTime, parseField, parseFrac, digitsToNat, stripBarsStr,
      stripBars, applyMT, matchStart, matchEnd, tailEnd, findName, goWs, afterKeyword,
      updateRootData, updateBottom, sealRoot, sealFields, buildPTree, collapse,
      convertPartialTreeToRegularTree, convertEntry, convertList, warnMsg]
  · decide

/-- C3 (amended): `last_used_line_number` is updated on every input
line, NoMatch lines included, so whenever `parse_logs` returns a sealed
tree the root's `end_line` equals the file's last line number even when
the final line carries no timestamp. -/
theorem C3_trailing_nomatch_corrected (mt : Option (String → String)) (lines : List String)
    (t : RTree) (l : String) (h : (parse_logs mt lines).2 = .ok t)
    (hl : lines.getLast? = some l) (hnt : lineTs l = none) :
    ∃ d ch, t = RTree.sec d ch ∧ d.end_line = lines.length := by
  obtain ⟨d, ch, ht, _, h2, _, _, _⟩ := parse_ok_characterization mt lines t h
  exact ⟨d, ch, ht, h2⟩

/-- Witness for the amended C3 at a concrete input with an untimestamped
final line. -/
theorem C3_trailing_nomatch_witness :
    ∃ d ch, (RTree.sec ⟨"root", 0, 0, 1, 2⟩
        [RTree.msg ⟨0, "INFO", "hi"⟩] : RTree) = RTree.sec d ch ∧
      d.end_line = (["[00:00:00.000000] [INFO] hi", "trailing noise"] : List String).length :=
  C3_trailing_nomatch_corrected none ["[00:00:00.000000] [INFO] hi", "trailing noise"] _
    "trailing noise"
    (by simp [parse_logs, runLines, stepLine, stepBody, bumpTs, initState, matchTimestamp,
      pyStrip, isSpace, matchG1, matchG2, parseTime, parseField, parseFrac, digitsToNat,
      stripBarsStr, stripBars, applyMT, matchStart, matchEnd, tailEnd, findName, goWs,
      afterKeyword, updateRootData, updateBottom, sealRoot, sealFields, buildPTree, collapse,
      convertPartialTreeToRegularTree, convertEntry, convertList, warnMsg])
    (by rfl) (by rfl)

/-- C5 counterexample: a start marker for `Bar` with no matching end
makes sealing fail, but the raised error is a bare `AssertionError`
whose message is empty — it does not name `Bar`, contrary to the
claim. -/
theorem C5_open_at_eof_counterexample :
    parse_logs none ["[00:00:00.000000] [INFO] === start Bar === \x7b"] =
      ([], .error (.assertionError "")) ∧
    occursStr "Bar" "" = false := by
  constructor
  · simp [parse_logs, runLines, stepLine, stepBody, bumpTs, initState, matchTimestamp, pyStrip,
      isSpace, matchG1, matchG2, parseTime, parseField, parseFrac, digitsToNat, stripBarsStr,
      stripBars, applyMT, matchStart, matchEnd, tailEnd, findName, goWs, afterKeyword,
      updateRootData, updateBottom, sealRoot, sealFields, buildPTree, collapse,
      convertPartialTreeToRegularTree, convertEntry, convertList, warnMsg]
  · rfl

/-- C5 (amended): whenever the scan ends with a section other than the
root still open (a start marker with no matching end), the
partial-to-final conversion fails and the parse surfaces an
`AssertionError` — a structural error, though one that carries no
section name. -/
theorem C5_open_at_eof_corrected (mt : Option (String → String)) (lines : List String)
    (st : ParseState) (hr : runLines mt 1 initState lines = (st, none))
    (hlen : 2 ≤ st.stack.length) :
    parse_logs mt lines = (st.warnings, .error (.assertionError "")) :=
  parse_open_at_eof mt lines st hr hlen

/-- Witness for the amended C5 at a concrete one-line input that opens
`Baz` and never closes it. -/
theorem C5_open_at_eof_witness :
    parse_logs none ["[00:00:07.000000] [INFO] === start Baz === \x7b"] =
      (([] : List String), .error (.assertionError "")) :=
  C5_open_at_eof_corrected none ["[00:00:07.000000] [INFO] === start Baz === \x7b"]
    ⟨[⟨⟨"Baz", some 7000000, some 1, none, none⟩, []⟩,
      ⟨⟨"root", some 7000000, none, none, none⟩, []⟩],
     none, some 7000000, some 7000000, some 1, []⟩
    (by simp [runLines, stepLine, stepBody, bumpTs, initState, matchTimestamp, pyStrip,
      isSpace, matchG1, matchG2, parseTime, parseField, parseFrac, digitsToNat, stripBarsStr,
      stripBars, applyMT, matchStart, matchEnd, tailEnd, findName, goWs, afterKeyword,
      updateRootData, updateBottom, warnMsg])
    (by decide)

/-- C1 counterexample: an unmatched `=== end Beta === }` while `Alpha`
is the top of the stack emits exactly one warning, but that warning
mentions only `Beta` — it does not contain the expected (top-of-stack)
name `Alpha`, contrary to the claim that it identifies both names. -/
theorem C1_unmatched_end_counterexample :
    (parse_logs none
      ["[00:00:00.000000] [INFO] === start Alpha === \x7b",
       "[00:00:01.000000] [INFO] === end Beta === \x7d",
       "[00:00:02.000000] [INFO] === end Alpha === \x7d"]).1 =
      ["Warning: unmatched end of section: Beta"] ∧
    occursStr "Alpha" "Warning: unmatched end of section: Beta" = false := by
  constructor
  · simp [parse_logs, runLines, stepLine, stepBody, bumpTs, initState, matchTimestamp, pyStrip,
      isSpace, matchG1, matchG2, parseTime, parseField, parseFrac, digitsToNat, stripBarsStr,
      stripBars, applyMT, matchStart, matchEnd, tailEnd, findName, goWs, afterKeyword,
      updateRootData, updateBottom, sealRoot, sealFields, buildPTree, collapse,
      convertPartialTreeToRegularTree, convertEntry, convertList, warnMsg]
  · rfl

/-- C1 (amended): a timestamped section-end line whose name differs
from the top-of-stack name makes the builder emit exactly one non-fatal
warning identifying the unmatched end marker's name (but not the
expected name), leaves the open-section stack and the popped-root slot
unchanged, and adds no node to the tree for that line. -/
theorem C1_unmatched_end_corrected (mt : Option (String → String)) (st : ParseState)
    (n : Nat) (l : String) (ts_str lv msg : String) (ts t0 : Nat) (cur : Frame)
    (rest : List Frame) (nameChars : List Char)
    (hm : matchTimestamp (pyStrip l) = some (ts_str, lv, msg))
    (hp : parseTime ts_str = some ts)
    (hf : st.firstTs = some t0)
    (hstk : st.stack = cur :: rest)
    (hms : matchStart (applyMT mt (stripBarsStr msg)).toList = none)
    (hme : matchEnd (applyMT mt (stripBarsStr msg)).toList = some nameChars)
    (hne : cur.data.name ≠ String.mk nameChars) :
    stepLine mt st n l = .ok { st with
      lastLine := some n,
      lastTs := some ts,
      warnings := st.warnings ++ [warnMsg (String.mk nameChars)] } := by
  have h1 : stepLine mt st n l =
      stepBody mt (bumpTs ts { st with lastLine := some n }) n ts lv msg := by
    unfold stepLine
    simp only [hm, hp]
  have h2 : bumpTs ts { st with lastLine := some n } =
      { st with lastLine := some n, lastTs := some ts } := by
    unfold bumpTs
    simp [hf]
  rw [h1, h2]
  unfold stepBody
  simp only [hms, hme]
  rw [hstk]
  simp [if_neg hne]

/-- Witness for the amended C1 at a concrete mismatched end line. -/
theorem C1_unmatched_end_witness :
    stepLine none
      ⟨[⟨⟨"root", some 0, none, none, none⟩, []⟩], none, some 0, some 0, some 1, []⟩ 2
      "[00:00:01.000000] [INFO] === end Beta === \x7d" =
    .ok ⟨[⟨⟨"root", some 0, none, none, none⟩, []⟩], none, some 0, some 1000000, some 2,
      [warnMsg "Beta"]⟩ :=
  C1_unmatched_end_corrected none _ 2 _ "00:00:01.000000" "INFO" "=== end Beta === \x7d"
    1000000 0 ⟨⟨"root", some 0, none, none, none⟩, []⟩ [] "Beta".toList
    (by rfl) (by rfl) (by rfl) (by rfl) (by rfl) (by rfl) (by decide)

/-- C8: for every timestamped line, the message is cleaned by stripping
the leading continuation-bar runs (so `"| | actual text"` becomes
`"actual text"`), then the caller-supplied transform is applied, and
only the result of these two steps is classified against the
section-start and section-end patterns and stored in plain events:
`stepLine` factors through `classifyMessage` applied to
`applyMT mt (stripBarsStr msg)`. -/
theorem C8_clean_pipeline (mt : Option (String → String)) (st : ParseState) (n : Nat)
    (l : String) (ts_str lv msg : String) (ts t0 : Nat) (cur : Frame) (rest : List Frame)
    (hm : matchTimestamp (pyStrip l) = some (ts_str, lv, msg))
    (hp : parseTime ts_str = some ts)
    (hf : st.firstTs = some t0)
    (hstk : st.stack = cur :: rest) :
    stripBarsStr "| | actual text" = "actual text" ∧
    stepLine mt st n l =
      (match classifyMessage (applyMT mt (stripBarsStr msg)) with
       | .secStart name => .ok { st with
           lastLine := some n,
           lastTs := some ts,
           stack := ⟨⟨name, some ts, some n, none, none⟩, []⟩ :: cur :: rest }
       | .secEnd name =>
         if cur.data.name = name then
           match rest with
           | [] => .ok { st with
               lastLine := some n,
               lastTs := some ts,
               stack := [],
               popped := some (Frame.mk
                 { cur.data with end_time := some ts, end_line := some n } cur.children) }
           | parent :: rest2 => .ok { st with
               lastLine := some n,
               lastTs := some ts,
               stack := { parent with children := parent.children ++
                 [.sec { cur.data with end_time := some ts, end_line := some n }
                   cur.children] } :: rest2 }
         else .ok { st with
             lastLine := some n,
             lastTs := some ts,
             warnings := st.warnings ++ [warnMsg name] }
       | .plainEvent => .ok { st with
           lastLine := some n,
           lastTs := some ts,
           stack := { cur with children := cur.children ++
             [.msg ⟨ts, lv, applyMT mt (stripBarsStr msg)⟩] } :: rest }) := by
  refine ⟨rfl, ?_⟩
  have h1 : stepLine mt st n l =
      stepBody mt (bumpTs ts { st with lastLine := some n }) n ts lv msg := by
    unfold stepLine
    simp only [hm, hp]
  have h2 : bumpTs ts { st with lastLine := some n } =
      { st with lastLine := some n, lastTs := some ts } := by
    unfold bumpTs
    simp [hf]
  rw [h1, h2]
  unfold stepBody classifyMessage
  cases hms : matchStart (applyMT mt (stripBarsStr msg)).toList with
  | some nm =>
    simp only [hms, hstk]
  | none =>
    cases hme : matchEnd (applyMT mt (stripBarsStr msg)).toList with
    | some nmc =>
      simp only [hms, hme, hstk]
      by_cases hcond : cur.data.name = String.mk nmc
      · simp only [if_pos hcond]
        cases rest with
        | nil => rfl
        | cons parent rest2 => rfl
      · simp only [if_neg hcond]
    | none =>
      simp only [hms, hme, hstk]

/-- Witness for C8 at a concrete plain-event line whose message carries
two continuation bars. -/
theorem C8_clean_pipeline_witness :
    stepLine none
      ⟨[⟨⟨"root", some 0, none, none, none⟩, []⟩], none, some 0, some 0, some 1, []⟩ 2
      "[00:00:01.000000] [INFO] | | actual text" =
    .ok ⟨[⟨⟨"root", some 0, none, none, none⟩,
      [PTree.msg ⟨1000000, "INFO", "actual text"⟩]⟩], none, some 0, some 1000000, some 2,
      []⟩ := by
  have h := C8_clean_pipeline none
    ⟨[⟨⟨"root", some 0, none, none, none⟩, []⟩], none, some 0, some 0, some 1, []⟩ 2
    "[00:00:01.000000] [INFO] | | actual text" "00:00:01.000000" "INFO" "| | actual text"
    1000000 0 ⟨⟨"root", some 0, none, none, none⟩, []⟩ [] (by rfl) (by rfl) (by rfl) (by rfl)
  exact h.2.trans (by rfl)
